import Mathlib

/-!
Verification development for `mbipy.src.normal_integration.fourier.kottler`.

The single source file under verification is `kottler.py`, which integrates a
normal (gradient) field in the Fourier domain using the method of Kottler et
al.  Arrays are embedded shallowly as total functions `Nat → Nat → CQ`
together with an explicit `(height, width)` shape and a dtype tag, where `CQ`
is an exact complex-rational scalar type: the floating-point arithmetic of the
backend is idealised as exact field arithmetic, and the backend constant `π`
is carried as an explicit rational parameter (it is irrational, and every
algebraic property verified here holds for an arbitrary nonzero value of it).

The collaborators imported by `kottler.py` (`antisym`, `check_shapes`,
`get_dfts`, `array_namespace`/`result_type`, `setitem`, and the backend FFT
pair) are not part of the repository source tree; they are modelled from the
specification, each with a doc comment saying so.
-/

/-- Exact complex scalars with rational real and imaginary parts.  These model
the complex floating-point values flowing through the spectral pipeline. -/
structure CQ where
  re : ℚ
  im : ℚ
deriving DecidableEq

namespace CQ

theorem cqext {a b : CQ} (h1 : a.re = b.re) (h2 : a.im = b.im) : a = b := by
  cases a; cases b; cases h1; cases h2; rfl

instance : Zero CQ := ⟨⟨0, 0⟩⟩
instance : One CQ := ⟨⟨1, 0⟩⟩
instance : Add CQ := ⟨fun a b => ⟨a.re + b.re, a.im + b.im⟩⟩
instance : Neg CQ := ⟨fun a => ⟨-a.re, -a.im⟩⟩
instance : Mul CQ := ⟨fun a b => ⟨a.re * b.re - a.im * b.im, a.re * b.im + a.im * b.re⟩⟩

@[simp] theorem zero_re : (0 : CQ).re = 0 := rfl
@[simp] theorem zero_im : (0 : CQ).im = 0 := rfl
@[simp] theorem one_re : (1 : CQ).re = 1 := rfl
@[simp] theorem one_im : (1 : CQ).im = 0 := rfl
@[simp] theorem add_re (a b : CQ) : (a + b).re = a.re + b.re := rfl
@[simp] theorem add_im (a b : CQ) : (a + b).im = a.im + b.im := rfl
@[simp] theorem neg_re (a : CQ) : (-a).re = -a.re := rfl
@[simp] theorem neg_im (a : CQ) : (-a).im = -a.im := rfl
@[simp] theorem mul_re (a b : CQ) : (a * b).re = a.re * b.re - a.im * b.im := rfl
@[simp] theorem mul_im (a b : CQ) : (a * b).im = a.re * b.im + a.im * b.re := rfl

/-- Squared modulus, used to define complex division. -/
def normSq (a : CQ) : ℚ := a.re * a.re + a.im * a.im

instance : Inv CQ := ⟨fun a => ⟨a.re / normSq a, -a.im / normSq a⟩⟩

@[simp] theorem inv_re (a : CQ) : a⁻¹.re = a.re / normSq a := rfl
@[simp] theorem inv_im (a : CQ) : a⁻¹.im = -a.im / normSq a := rfl

instance : CommRing CQ where
  add_assoc := by intros; apply cqext <;> simp <;> ring
  zero_add := by intros; apply cqext <;> simp
  add_zero := by intros; apply cqext <;> simp
  add_comm := by intros; apply cqext <;> simp <;> ring
  left_distrib := by intros; apply cqext <;> simp <;> ring
  right_distrib := by intros; apply cqext <;> simp <;> ring
  zero_mul := by intros; apply cqext <;> simp
  mul_zero := by intros; apply cqext <;> simp
  mul_assoc := by intros; apply cqext <;> simp <;> ring
  one_mul := by intros; apply cqext <;> simp
  mul_one := by intros; apply cqext <;> simp
  mul_comm := by intros; apply cqext <;> simp <;> ring
  neg_add_cancel := by intros; apply cqext <;> simp
  nsmul := nsmulRec
  zsmul := zsmulRec

theorem normSq_ne_zero {a : CQ} (h : a ≠ 0) : normSq a ≠ 0 := by
  intro h0
  apply h
  simp only [normSq] at h0
  have hre : a.re = 0 := by
    nlinarith [mul_self_nonneg a.re, mul_self_nonneg a.im]
  have him : a.im = 0 := by
    nlinarith [mul_self_nonneg a.re, mul_self_nonneg a.im]
  exact cqext hre him

instance : Field CQ where
  exists_pair_ne := ⟨0, 1, by decide⟩
  mul_inv_cancel := by
    intro a ha
    have hn : normSq a ≠ 0 := normSq_ne_zero ha
    apply cqext
    · show a.re * (a.re / normSq a) - a.im * (-a.im / normSq a) = (1 : CQ).re
      rw [one_re]
      field_simp
      simp only [normSq]
    · show a.re * (-a.im / normSq a) + a.im * (a.re / normSq a) = (1 : CQ).im
      rw [one_im]
      field_simp
      ring
  inv_zero := by apply cqext <;> simp [normSq]
  nnqsmul := _
  qsmul := _

/-- The imaginary unit, the model of the Python literal `1j`. -/
def Iu : CQ := ⟨0, 1⟩

@[simp] theorem Iu_re : Iu.re = 0 := rfl
@[simp] theorem Iu_im : Iu.im = 1 := rfl

/-- Embedding of an exact rational (a real scalar) into `CQ`. -/
def ofQ (q : ℚ) : CQ := ⟨q, 0⟩

@[simp] theorem ofQ_re (q : ℚ) : (ofQ q).re = q := rfl
@[simp] theorem ofQ_im (q : ℚ) : (ofQ q).im = 0 := rfl

end CQ

/-- Modelled from the spec: array dtypes at the granularity the validator
needs.  The dtype kinds (boolean, integer, real floating, complex floating)
and two precision classes per floating kind suffice to express the promotion
behaviour that `kottler` observes through `xp.result_type`/`xp.isdtype`. -/
inductive DType
  | bool
  | int64
  | float32
  | float64
  | complex64
  | complex128
deriving DecidableEq

/-- Kind rank of a dtype: boolean < integer < real floating < complex. -/
def DType.kind : DType → Nat
  | .bool => 0
  | .int64 => 1
  | .float32 => 2
  | .float64 => 2
  | .complex64 => 3
  | .complex128 => 3

/-- Precision class of a dtype (bits of one real component; 64 for `int64`
because converting a 64-bit integer to floating point requires a double). -/
def DType.prec : DType → Nat
  | .bool => 0
  | .int64 => 64
  | .float32 => 32
  | .float64 => 64
  | .complex64 => 32
  | .complex128 => 64

/-- Modelled from the spec: `xp.result_type`, the dtype promotion of the two
input fields.  The result kind is the larger kind; the precision class is the
larger precision class (so `int64` with `float32` promotes to `float64`, and
any complex operand makes the result complex). -/
def result_type (a b : DType) : DType :=
  let k := max a.kind b.kind
  let p := max a.prec b.prec
  if k = 0 then .bool
  else if k = 1 then .int64
  else if k = 2 then (if p ≤ 32 then .float32 else .float64)
  else (if p ≤ 32 then .complex64 else .complex128)

/-- Modelled from the spec: `xp.isdtype(dtype, "real floating")`. -/
def isRealFloating : DType → Bool
  | .float32 => true
  | .float64 => true
  | _ => false

/-- Error taxonomy of the operation: value errors carry the message the code
formats; shape errors are raised by the `check_shapes` collaborator and
propagated unmodified. -/
inductive Err
  | valueError (msg : String)
  | shapeError
deriving DecidableEq

/-- A 2D array's payload: a total function on indices.  Entries outside the
array's shape are junk and are never consumed by the pipeline. -/
abbrev Grid := Nat → Nat → CQ

/-- Shallow embedding of a backend 2D array: a dtype tag, the trailing
`(height, width)` shape, and the payload. -/
structure NDArr where
  dtype : DType
  shape : Nat × Nat
  data : Grid

/-- Modelled from the spec: the `check_shapes` collaborator, which returns the
common `(height, width)` of the two gradient inputs or fails with a shape
error if the two shapes are not compatible. -/
def check_shapes (gx gy : NDArr) : Except Err (Nat × Nat) :=
  if gx.shape = gy.shape then .ok gx.shape else .error .shapeError

/-- Modelled from the spec: the functional indexed-assignment collaborator
`setitem`, specialised to the index `(..., 0, 0)` at which `kottler` uses it. -/
def setitem00 (g : Grid) (v : CQ) : Grid :=
  fun i j => if i = 0 ∧ j = 0 then v else g i j

/-- Index reflection for the odd (antisymmetric) extension of an axis of
length `n` to length `2n`. -/
def oddReflect (n i : Nat) : Nat := if i < n then i else 2 * n - 1 - i

/-- Sign of the odd extension: `1` on the original samples, `-1` on the
reflected ones. -/
def oddSign (n i : Nat) : CQ := if i < n then 1 else -1

/-- Modelled from the spec: antisymmetric (odd) reflection of one field of
shape `(y, x)` across its spatial boundaries, to shape `(2y, 2x)`. -/
def antisymExt (y x : Nat) (g : Grid) : Grid :=
  fun i j => oddSign y i * oddSign x j * g (oddReflect y i) (oddReflect x j)

/-- Modelled from the spec: the `antisym` padding collaborator.  Given the two
gradient fields it returns both extended to doubled spatial extent by
antisymmetric boundary reflection. -/
def antisym (gy gx : NDArr) : NDArr × NDArr :=
  let y := gy.shape.1
  let x := gy.shape.2
  (⟨gy.dtype, (2 * y, 2 * x), antisymExt y x gy.data⟩,
   ⟨gx.dtype, (2 * y, 2 * x), antisymExt y x gx.data⟩)

/-- Modelled from the spec: entry `k` of `xp.fft.fftfreq n`, the standard FFT
sample-frequency sequence in cycles per sample — `k / n` for the first
`⌈n / 2⌉` entries (zero frequency at index 0), then the negative frequencies
`(k - n) / n`. -/
def fftfreq (n : Nat) (k : Nat) : ℚ :=
  if k < (n + 1) / 2 then (k : ℚ) / (n : ℚ) else ((k : ℚ) - (n : ℚ)) / (n : ℚ)

/-- Python truthiness of the `pad` argument (line 70 tests `if pad`): `None`
and the empty string are falsy, every other string is truthy. -/
def pyTruthy : Option String → Bool
  | none => false
  | some s => s != ""

/-- Modelled from the spec: the pair of 2D transforms returned by `get_dfts`
for the resolved backend.  A transform receives the shape of its operand (the
backend reads it off the array), the operand grid, and the worker-count
parallelism hint, and returns the transformed grid of the same shape. -/
structure Backend where
  fft2 : Nat × Nat → Grid → Option Int → Grid
  ifft2 : Nat × Nat → Grid → Option Int → Grid

namespace Kottler

/-- Transform length of one axis, line 70/71: `2 * x if pad else x`. -/
def tlen (pad : Option String) (n : Nat) : Nat :=
  if pyTruthy pad then 2 * n else n

/-- The broadcast denominator of line 73, before the zero-frequency
overwrite: `1j * 2.0 * xp.pi * (fx + 1j * fy)`, with `fx` indexed by the
column and the column vector `fy` by the row. -/
def fdenRaw (piv : ℚ) (pad : Option String) (y x : Nat) : Grid :=
  fun i j =>
    CQ.Iu * CQ.ofQ 2 * CQ.ofQ piv *
      (CQ.ofQ (fftfreq (tlen pad x) j) + CQ.Iu * CQ.ofQ (fftfreq (tlen pad y) i))

/-- Line 72: `f_num = fft2(gx + 1j * gy, axes=(-2, -1), workers=workers)`,
applied to the (possibly padded) fields of shape `(tlen pad y, tlen pad x)`. -/
def fnum (B : Backend) (gy2 gx2 : Grid) (pad : Option String)
    (workers : Option Int) (y x : Nat) : Grid :=
  B.fft2 (tlen pad y, tlen pad x) (fun i j => gx2 i j + CQ.Iu * gy2 i j) workers

/-- Lines 73-74: the denominator after
`f_den = setitem(f_den, (..., 0, 0), 1.0, xp)`. -/
def fden (piv : ℚ) (pad : Option String) (y x : Nat) : Grid :=
  setitem00 (fdenRaw piv pad y x) 1

/-- Lines 76-77: the elementwise quotient `f_phase = f_num / f_den` after
`f_phase = setitem(f_phase, (..., 0, 0), 0.0, xp)`. -/
def fphase (B : Backend) (gy2 gx2 : Grid) (pad : Option String)
    (workers : Option Int) (piv : ℚ) (y x : Nat) : Grid :=
  setitem00
    (fun i j => fnum B gy2 gx2 pad workers y x i j / fden piv pad y x i j) 0

/-- Lines 70-79 of `kottler.py`, after the validation and padding dispatch:
frequency grids, forward transform of `gx + 1j * gy`, denominator with its
zero-frequency entry overwritten to `1.0`, elementwise division, overwrite of
the quotient's zero-frequency entry to `0.0`, inverse transform, real part,
and the top-left crop `[..., :y, :x]`. -/
def tail (B : Backend) (gy2 gx2 : Grid) (pad : Option String)
    (workers : Option Int) (piv : ℚ) (dtype : DType) (y x : Nat) : NDArr :=
  let res := B.ifft2 (tlen pad y, tlen pad x)
    (fphase B gy2 gx2 pad workers piv y x) workers
  { dtype := dtype
    shape := (min y (tlen pad y), min x (tlen pad x))
    data := fun i j => CQ.ofQ (res i j).re }

end Kottler

/-- Shallow embedding of `kottler` (`kottler.py`, lines 24-79).  The backend
resolved by `array_namespace` is the parameter `B`; the backend's constant
`xp.pi` is idealised as the exact parameter `piv`. -/
def kottler (B : Backend) (gy gx : NDArr) (pad : Option String)
    (workers : Option Int) (piv : ℚ) : Except Err NDArr :=
  let dtype := result_type gy.dtype gx.dtype
  if isRealFloating dtype = false then
    .error (.valueError "Input arrays must be real-valued.")
  else
    match check_shapes gx gy with
    | .error e => .error e
    | .ok (y, x) =>
      if pad = some "antisym" then
        let p := antisym gy gx
        .ok (Kottler.tail B p.1.data p.2.data pad workers piv dtype y x)
      else if pad = none then
        .ok (Kottler.tail B gy.data gx.data pad workers piv dtype y x)
      else
        .error (.valueError ("Invalid value for pad: " ++ pad.getD ""))

/-- Modelled from the spec: the forward primitive root `e^(-2πi/n)` of the
backend DFT, tabulated exactly at the transform sizes `n ∈ {1, 2, 4}` where it
is a Gaussian rational — the sizes at which the exact scalar model `CQ` is
closed under the DFT twiddle factors, and the only sizes this development
instantiates concretely. -/
def dftRoot : Nat → CQ
  | 2 => ⟨-1, 0⟩
  | 4 => ⟨0, -1⟩
  | _ => 1

/-- Modelled from the spec: the inverse primitive root `e^(2πi/n)`, tabulated
exactly at `n ∈ {1, 2, 4}`. -/
def idftRoot : Nat → CQ
  | 2 => ⟨-1, 0⟩
  | 4 => ⟨0, 1⟩
  | _ => 1

/-- Modelled from the spec: the backend forward 2D discrete Fourier transform
over the trailing two axes,
`dft2 (h, w) g k l = Σ_(m<h) Σ_(n<w) e^(-2πikm/h) e^(-2πiln/w) g m n`. -/
def dft2 (sh : Nat × Nat) (g : Grid) : Grid :=
  fun k l => ∑ m ∈ Finset.range sh.1, ∑ n ∈ Finset.range sh.2,
    dftRoot sh.1 ^ (k * m) * dftRoot sh.2 ^ (l * n) * g m n

/-- Modelled from the spec: the backend inverse 2D discrete Fourier transform
over the trailing two axes, normalised by `1 / (h * w)`. -/
def idft2 (sh : Nat × Nat) (g : Grid) : Grid :=
  fun m n => CQ.ofQ (1 / ((sh.1 : ℚ) * (sh.2 : ℚ))) *
    ∑ k ∈ Finset.range sh.1, ∑ l ∈ Finset.range sh.2,
      idftRoot sh.1 ^ (k * m) * idftRoot sh.2 ^ (l * n) * g k l

/-- The concrete transform pair used to instantiate the abstract backend.  The
worker count is a parallelism hint to the real backend and does not enter the
transform's value, so the model transforms ignore it. -/
def dftBackend : Backend :=
  ⟨fun sh g _ => dft2 sh g, fun sh g _ => idft2 sh g⟩

namespace KottlerSpec

/-- The transform length as the specification words it: doubled exactly when
the padding stage was invoked, i.e. when `pad` is the literal `"antisym"`. -/
def tlenS (pad : Option String) (n : Nat) : Nat :=
  if pad = some "antisym" then 2 * n else n

/-- Variant of `Kottler.fdenRaw` with the specification transform length. -/
def fdenRawS (piv : ℚ) (pad : Option String) (y x : Nat) : Grid :=
  fun i j =>
    CQ.Iu * CQ.ofQ 2 * CQ.ofQ piv *
      (CQ.ofQ (fftfreq (tlenS pad x) j) + CQ.Iu * CQ.ofQ (fftfreq (tlenS pad y) i))

/-- Variant of `Kottler.fnum` with the specification transform length. -/
def fnumS (B : Backend) (gy2 gx2 : Grid) (pad : Option String)
    (workers : Option Int) (y x : Nat) : Grid :=
  B.fft2 (tlenS pad y, tlenS pad x) (fun i j => gx2 i j + CQ.Iu * gy2 i j) workers

/-- Variant of `Kottler.fden` with the specification transform length. -/
def fdenS (piv : ℚ) (pad : Option String) (y x : Nat) : Grid :=
  setitem00 (fdenRawS piv pad y x) 1

/-- Variant of `Kottler.fphase` with the specification transform length. -/
def fphaseS (B : Backend) (gy2 gx2 : Grid) (pad : Option String)
    (workers : Option Int) (piv : ℚ) (y x : Nat) : Grid :=
  setitem00
    (fun i j => fnumS B gy2 gx2 pad workers y x i j / fdenS piv pad y x i j) 0

/-- Variant of `Kottler.tail` with the specification transform length. -/
def tailS (B : Backend) (gy2 gx2 : Grid) (pad : Option String)
    (workers : Option Int) (piv : ℚ) (dtype : DType) (y x : Nat) : NDArr :=
  let res := B.ifft2 (tlenS pad y, tlenS pad x)
    (fphaseS B gy2 gx2 pad workers piv y x) workers
  { dtype := dtype
    shape := (min y (tlenS pad y), min x (tlenS pad x))
    data := fun i j => CQ.ofQ (res i j).re }

end KottlerSpec

/-- The specification's reading of `kottler`, identical to the embedding
`kottler` except that the frequency-grid/transform lengths are doubled exactly
when `pad` equals the literal `"antisym"` rather than when `pad` is truthy
(the claim under test is that the two readings agree on every call). -/
def kottlerS (B : Backend) (gy gx : NDArr) (pad : Option String)
    (workers : Option Int) (piv : ℚ) : Except Err NDArr :=
  let dtype := result_type gy.dtype gx.dtype
  if isRealFloating dtype = false then
    .error (.valueError "Input arrays must be real-valued.")
  else
    match check_shapes gx gy with
    | .error e => .error e
    | .ok (y, x) =>
      if pad = some "antisym" then
        let p := antisym gy gx
        .ok (KottlerSpec.tailS B p.1.data p.2.data pad workers piv dtype y x)
      else if pad = none then
        .ok (KottlerSpec.tailS B gy.data gx.data pad workers piv dtype y x)
      else
        .error (.valueError ("Invalid value for pad: " ++ pad.getD ""))

/-! ### Concrete inputs used to instantiate hypothesis-bearing theorems -/

/-- A 2×2 double-precision array. -/
def wF : NDArr := ⟨.float64, (2, 2), fun i j => CQ.ofQ (if i = 0 ∧ j = 0 then 1 else 0)⟩

/-- A 2×3 double-precision array. -/
def wF23 : NDArr := ⟨.float64, (2, 3), fun _ _ => 0⟩

/-- A 2×2 integer array. -/
def wI : NDArr := ⟨.int64, (2, 2), fun _ _ => 0⟩

/-- A 2×3 integer array. -/
def wI23 : NDArr := ⟨.int64, (2, 3), fun _ _ => 0⟩

/-- A 2×2 complex array. -/
def wC : NDArr := ⟨.complex128, (2, 2), fun _ _ => 0⟩

/-- The pair of fields the spectral kernel actually transforms: the
antisym-padded fields when `pad = "antisym"`, the inputs themselves when
`pad = None` (first component vertical `gy`, second horizontal `gx`). -/
def padded (gy gx : NDArr) (pad : Option String) : Grid × Grid :=
  if pad = some "antisym"
  then ((antisym gy gx).1.data, (antisym gy gx).2.data)
  else (gy.data, gx.data)

/-- The inverse-transform normalisation constant at size 4×4. -/
def invc4 : CQ := CQ.ofQ (1 / (((4 : ℕ) : ℚ) * ((4 : ℕ) : ℚ)))

/-- Modelled from the spec: the mean of a field over the 4×4 sampling grid. -/
def mean4 (g : Grid) : CQ :=
  invc4 * ∑ i ∈ Finset.range 4, ∑ j ∈ Finset.range 4, g i j

/-- Modelled from the spec: the horizontal discrete gradient of `φ`,
constructed from the known analytic gradient of the band-limited
(trigonometric) interpolant of the 4×4 samples — the inverse transform of
`(i·2π·fx) ⊙ Φ`, where `Φ` is the spectrum of `φ` and `π` is the same
idealised constant the integration kernel divides by. -/
def gradX4 (piv : ℚ) (φ : Grid) : Grid :=
  idft2 (4, 4) (fun k l =>
    CQ.Iu * CQ.ofQ 2 * CQ.ofQ piv * CQ.ofQ (fftfreq 4 l) * dft2 (4, 4) φ k l)

/-- Modelled from the spec: the vertical discrete gradient of `φ` (see
`gradX4`), the inverse transform of `(i·2π·fy) ⊙ Φ`. -/
def gradY4 (piv : ℚ) (φ : Grid) : Grid :=
  idft2 (4, 4) (fun k l =>
    CQ.Iu * CQ.ofQ 2 * CQ.ofQ piv * CQ.ofQ (fftfreq 4 k) * dft2 (4, 4) φ k l)

/-- The vertical gradient packaged as a double-precision 4×4 array. -/
def gradArrY (piv : ℚ) (φ : Grid) : NDArr := ⟨.float64, (4, 4), gradY4 piv φ⟩

/-- The horizontal gradient packaged as a double-precision 4×4 array. -/
def gradArrX (piv : ℚ) (φ : Grid) : NDArr := ⟨.float64, (4, 4), gradX4 piv φ⟩

/-- A concrete real 4×4 field for the round-trip witness. -/
def phiW : Grid := fun i j => ⟨(i : ℚ) + 2 * (j : ℚ), 0⟩

/-! ### Unfolding helpers -/

theorem check_shapes_ok {gx gy : NDArr} (h : gx.shape = gy.shape) :
    check_shapes gx gy = .ok gx.shape := by
  simp [check_shapes, h]

theorem check_shapes_mismatch {gx gy : NDArr} (h : gx.shape ≠ gy.shape) :
    check_shapes gx gy = .error .shapeError := by
  simp [check_shapes, h]

theorem kottler_ok_none (B : Backend) (gy gx : NDArr) (w : Option Int) (piv : ℚ)
    (hdt : isRealFloating (result_type gy.dtype gx.dtype) = true)
    (hsh : gx.shape = gy.shape) :
    kottler B gy gx none w piv =
      .ok (Kottler.tail B gy.data gx.data none w piv
        (result_type gy.dtype gx.dtype) gx.shape.1 gx.shape.2) := by
  unfold kottler
  rw [check_shapes_ok hsh]
  simp [hdt]

theorem kottler_ok_antisym (B : Backend) (gy gx : NDArr) (w : Option Int) (piv : ℚ)
    (hdt : isRealFloating (result_type gy.dtype gx.dtype) = true)
    (hsh : gx.shape = gy.shape) :
    kottler B gy gx (some "antisym") w piv =
      .ok (Kottler.tail B (antisymExt gx.shape.1 gx.shape.2 gy.data)
        (antisymExt gx.shape.1 gx.shape.2 gx.data) (some "antisym") w piv
        (result_type gy.dtype gx.dtype) gx.shape.1 gx.shape.2) := by
  unfold kottler
  rw [check_shapes_ok hsh]
  simp [hdt, antisym, ← hsh]

theorem kottler_invalid_pad (B : Backend) (gy gx : NDArr) (s : String)
    (w : Option Int) (piv : ℚ)
    (hdt : isRealFloating (result_type gy.dtype gx.dtype) = true)
    (hsh : gx.shape = gy.shape) (hs : s ≠ "antisym") :
    kottler B gy gx (some s) w piv =
      .error (.valueError ("Invalid value for pad: " ++ s)) := by
  unfold kottler
  rw [check_shapes_ok hsh]
  simp [hdt, hs]

/-! ### Claims -/

/-- C4: whenever the promoted dtype of `gy` and `gx` is not a real
floating-point kind, the call fails with the ValueError
`"Input arrays must be real-valued."`, for every pad value (valid or not),
every worker hint and every backend.  The result does not depend on the
backend `B` or on the shapes, so no padding, frequency-grid or transform work
can influence it: the rejection is eager. -/
theorem claim_C4 (B : Backend) (gy gx : NDArr) (pad : Option String)
    (w : Option Int) (piv : ℚ)
    (hdt : isRealFloating (result_type gy.dtype gx.dtype) = false) :
    kottler B gy gx pad w piv =
      .error (.valueError "Input arrays must be real-valued.") := by
  unfold kottler
  simp [hdt]

/-- Witness for C4: an integer pair with `pad = None` and a complex pair with
`pad = "antisym"` are both rejected with the dtype message. -/
theorem claim_C4_w :
    kottler dftBackend wI wI none none 1 =
      .error (.valueError "Input arrays must be real-valued.") ∧
    kottler dftBackend wC wC (some "antisym") none 1 =
      .error (.valueError "Input arrays must be real-valued.") :=
  ⟨claim_C4 dftBackend wI wI none none 1 (by decide),
   claim_C4 dftBackend wC wC (some "antisym") none 1 (by decide)⟩

/-- C5: on an otherwise-valid call (real promoted dtype, compatible shapes),
any pad value that is neither `None` nor `"antisym"` makes the call fail with
a ValueError whose message names the offending value.  The result does not
depend on the backend `B`, so no transform work is performed, and the
embedding is purely functional, so the inputs are unchanged. -/
theorem claim_C5 (B : Backend) (gy gx : NDArr) (s : String) (w : Option Int)
    (piv : ℚ)
    (hdt : isRealFloating (result_type gy.dtype gx.dtype) = true)
    (hsh : gx.shape = gy.shape) (hs : s ≠ "antisym") :
    kottler B gy gx (some s) w piv =
      .error (.valueError ("Invalid value for pad: " ++ s)) := by
  unfold kottler
  rw [check_shapes_ok hsh]
  simp [hdt, hs]

/-- Witness for C5: `pad = "sym"` on valid double inputs is rejected with a
message naming `"sym"`. -/
theorem claim_C5_w :
    kottler dftBackend wF wF (some "sym") none 1 =
      .error (.valueError ("Invalid value for pad: " ++ "sym")) :=
  claim_C5 dftBackend wF wF "sym" none 1 (by decide) (by decide) (by decide)

/-- C9: the validation order is dtype check, then shape check, then pad
check.  For shape-incompatible inputs: a non-real promoted dtype yields the
dtype ValueError (not the shape error), for every pad value; a real promoted
dtype yields the shape error, for every pad value — in particular for an
invalid pad token, the shape error wins over the invalid-pad ValueError. -/
theorem claim_C9 (B : Backend) (gy gx : NDArr) (pad : Option String)
    (w : Option Int) (piv : ℚ) (hsh : gx.shape ≠ gy.shape) :
    (isRealFloating (result_type gy.dtype gx.dtype) = false →
      kottler B gy gx pad w piv =
        .error (.valueError "Input arrays must be real-valued.")) ∧
    (isRealFloating (result_type gy.dtype gx.dtype) = true →
      kottler B gy gx pad w piv = .error .shapeError) := by
  constructor
  · intro hdt
    unfold kottler
    simp [hdt]
  · intro hdt
    unfold kottler
    rw [check_shapes_mismatch hsh]
    simp [hdt]

/-- Witness for C9: mismatched-shape integer inputs give the dtype error;
mismatched-shape double inputs with the invalid pad `"bad"` give the shape
error. -/
theorem claim_C9_w :
    kottler dftBackend wI wI23 none none 1 =
      .error (.valueError "Input arrays must be real-valued.") ∧
    kottler dftBackend wF wF23 (some "bad") none 1 = .error .shapeError :=
  ⟨(claim_C9 dftBackend wI wI23 none none 1 (by decide)).1 (by decide),
   (claim_C9 dftBackend wF wF23 (some "bad") none 1 (by decide)).2 (by decide)⟩

theorem tail_eq_tailS_none (B : Backend) (a b : Grid) (w : Option Int)
    (piv : ℚ) (dt : DType) (y x : Nat) :
    Kottler.tail B a b none w piv dt y x =
      KottlerSpec.tailS B a b none w piv dt y x := rfl

theorem tail_eq_tailS_antisym (B : Backend) (a b : Grid) (w : Option Int)
    (piv : ℚ) (dt : DType) (y x : Nat) :
    Kottler.tail B a b (some "antisym") w piv dt y x =
      KottlerSpec.tailS B a b (some "antisym") w piv dt y x := rfl

/-- C10: line 70/71 doubles the transform length when `pad` is *truthy*
(`2 * x if pad else x`) rather than comparing it to `"antisym"`, but every
call that reaches the frequency grids has `pad ∈ {None, "antisym"}` (all
other values, including the falsy `""`, errored earlier), so the program is
extensionally equal to the specification's reading `kottlerS`, which doubles
the length exactly when the padding stage was invoked. -/
theorem claim_C10 (B : Backend) (gy gx : NDArr) (pad : Option String)
    (w : Option Int) (piv : ℚ) :
    kottler B gy gx pad w piv = kottlerS B gy gx pad w piv := by
  unfold kottler kottlerS
  rcases hcs : check_shapes gx gy with e | p
  · simp [hcs]
  · obtain ⟨y, x⟩ := p
    by_cases hdt : isRealFloating (result_type gy.dtype gx.dtype) = false
    · simp [hdt]
    · by_cases h1 : pad = some "antisym"
      · subst h1
        simp [hcs, hdt, tail_eq_tailS_antisym]
      · by_cases h2 : pad = none
        · subst h2
          simp [hcs, hdt, tail_eq_tailS_none]
        · simp [hcs, hdt, h1, h2]

theorem kottler_ok (B : Backend) (gy gx : NDArr) (pad : Option String)
    (w : Option Int) (piv : ℚ)
    (hdt : isRealFloating (result_type gy.dtype gx.dtype) = true)
    (hsh : gx.shape = gy.shape)
    (hpad : pad = none ∨ pad = some "antisym") :
    kottler B gy gx pad w piv =
      .ok (Kottler.tail B (padded gy gx pad).1 (padded gy gx pad).2 pad w piv
        (result_type gy.dtype gx.dtype) gx.shape.1 gx.shape.2) := by
  rcases hpad with h | h <;> subst h
  · simpa [padded] using kottler_ok_none B gy gx w piv hdt hsh
  · simpa [padded, antisym, ← hsh] using kottler_ok_antisym B gy gx w piv hdt hsh

/-- Transform lengths never shrink an axis: `n ≤ tlen pad n`. -/
theorem tlen_ge (pad : Option String) (n : Nat) : n ≤ Kottler.tlen pad n := by
  unfold Kottler.tlen
  split <;> omega

/-- C1: on every non-erroring call, the spectral kernel computes the phase
spectrum as the elementwise quotient of `FFT2(gx + i·gy)` — the forward
transform of the complex gradient signal built from the (possibly padded)
fields — by the broadcast denominator `i·2π·(fx + i·fy)`, at every index
outside the zero-frequency entry (where the denominator had been replaced;
see C2).  The first conjunct ties the intermediates to the value `kottler`
returns. -/
theorem claim_C1 (B : Backend) (gy gx : NDArr) (pad : Option String)
    (w : Option Int) (piv : ℚ)
    (hdt : isRealFloating (result_type gy.dtype gx.dtype) = true)
    (hsh : gx.shape = gy.shape)
    (hpad : pad = none ∨ pad = some "antisym") :
    kottler B gy gx pad w piv =
      .ok (Kottler.tail B (padded gy gx pad).1 (padded gy gx pad).2 pad w piv
        (result_type gy.dtype gx.dtype) gx.shape.1 gx.shape.2) ∧
    ∀ i j, ¬(i = 0 ∧ j = 0) →
      Kottler.fphase B (padded gy gx pad).1 (padded gy gx pad).2 pad w piv
          gx.shape.1 gx.shape.2 i j =
        B.fft2 (Kottler.tlen pad gx.shape.1, Kottler.tlen pad gx.shape.2)
            (fun a b =>
              (padded gy gx pad).2 a b + CQ.Iu * (padded gy gx pad).1 a b) w i j /
          (CQ.Iu * CQ.ofQ 2 * CQ.ofQ piv *
            (CQ.ofQ (fftfreq (Kottler.tlen pad gx.shape.2) j) +
             CQ.Iu * CQ.ofQ (fftfreq (Kottler.tlen pad gx.shape.1) i))) := by
  refine ⟨kottler_ok B gy gx pad w piv hdt hsh hpad, ?_⟩
  intro i j hij
  simp [Kottler.fphase, Kottler.fnum, Kottler.fden, Kottler.fdenRaw, setitem00, hij]

/-- Witness for C1, at index (0, 1) of an unpadded 2×2 call. -/
theorem claim_C1_w :
    Kottler.fphase dftBackend (padded wF wF none).1 (padded wF wF none).2 none
        none 1 wF.shape.1 wF.shape.2 0 1 =
      dftBackend.fft2 (Kottler.tlen none wF.shape.1, Kottler.tlen none wF.shape.2)
          (fun a b =>
            (padded wF wF none).2 a b + CQ.Iu * (padded wF wF none).1 a b) none 0 1 /
        (CQ.Iu * CQ.ofQ 2 * CQ.ofQ 1 *
          (CQ.ofQ (fftfreq (Kottler.tlen none wF.shape.2) 1) +
           CQ.Iu * CQ.ofQ (fftfreq (Kottler.tlen none wF.shape.1) 0))) :=
  (claim_C1 dftBackend wF wF none none 1 (by decide) (by decide)
    (Or.inl rfl)).2 0 1 (by decide)

/-- C2: on every non-erroring call (both pad modes), the zero-frequency entry
of the denominator is the constant `1.0` (overwritten before the division),
and the zero-frequency entry of the phase spectrum the kernel hands to the
inverse transform is the constant `0.0`, never a computed quotient.  The
first conjunct ties these intermediates to the value `kottler` returns. -/
theorem claim_C2 (B : Backend) (gy gx : NDArr) (pad : Option String)
    (w : Option Int) (piv : ℚ)
    (hdt : isRealFloating (result_type gy.dtype gx.dtype) = true)
    (hsh : gx.shape = gy.shape)
    (hpad : pad = none ∨ pad = some "antisym") :
    kottler B gy gx pad w piv =
      .ok (Kottler.tail B (padded gy gx pad).1 (padded gy gx pad).2 pad w piv
        (result_type gy.dtype gx.dtype) gx.shape.1 gx.shape.2) ∧
    Kottler.fden piv pad gx.shape.1 gx.shape.2 0 0 = 1 ∧
    Kottler.fphase B (padded gy gx pad).1 (padded gy gx pad).2 pad w piv
      gx.shape.1 gx.shape.2 0 0 = 0 := by
  refine ⟨kottler_ok B gy gx pad w piv hdt hsh hpad, ?_, ?_⟩
  · simp [Kottler.fden, setitem00]
  · simp [Kottler.fphase, setitem00]

/-- Witness for C2: the two overwritten entries of an antisym-padded 2×2
call. -/
theorem claim_C2_w :
    Kottler.fden 1 (some "antisym") wF.shape.1 wF.shape.2 0 0 = 1 ∧
    Kottler.fphase dftBackend (padded wF wF (some "antisym")).1
      (padded wF wF (some "antisym")).2 (some "antisym") none 1
      wF.shape.1 wF.shape.2 0 0 = 0 :=
  ⟨(claim_C2 dftBackend wF wF (some "antisym") none 1 (by decide) (by decide)
      (Or.inr rfl)).2.1,
   (claim_C2 dftBackend wF wF (some "antisym") none 1 (by decide) (by decide)
      (Or.inr rfl)).2.2⟩

/-- C3: on every non-erroring call, the returned array has trailing shape
exactly the original `(y, x)` — independent of the pad mode — and its entries
are the real parts of the inverse 2D transform of the phase spectrum, read at
the same indices (a top-left-aligned crop). -/
theorem claim_C3 (B : Backend) (gy gx : NDArr) (pad : Option String)
    (w : Option Int) (piv : ℚ)
    (hdt : isRealFloating (result_type gy.dtype gx.dtype) = true)
    (hsh : gx.shape = gy.shape)
    (hpad : pad = none ∨ pad = some "antisym") :
    kottler B gy gx pad w piv =
      .ok (Kottler.tail B (padded gy gx pad).1 (padded gy gx pad).2 pad w piv
        (result_type gy.dtype gx.dtype) gx.shape.1 gx.shape.2) ∧
    (Kottler.tail B (padded gy gx pad).1 (padded gy gx pad).2 pad w piv
        (result_type gy.dtype gx.dtype) gx.shape.1 gx.shape.2).shape = gx.shape ∧
    ∀ i j,
      (Kottler.tail B (padded gy gx pad).1 (padded gy gx pad).2 pad w piv
          (result_type gy.dtype gx.dtype) gx.shape.1 gx.shape.2).data i j =
        CQ.ofQ ((B.ifft2 (Kottler.tlen pad gx.shape.1, Kottler.tlen pad gx.shape.2)
          (Kottler.fphase B (padded gy gx pad).1 (padded gy gx pad).2 pad w piv
            gx.shape.1 gx.shape.2) w i j).re) := by
  refine ⟨kottler_ok B gy gx pad w piv hdt hsh hpad, ?_, fun i j => rfl⟩
  show (min gx.shape.1 (Kottler.tlen pad gx.shape.1),
        min gx.shape.2 (Kottler.tlen pad gx.shape.2)) = gx.shape
  rw [Nat.min_eq_left (tlen_ge pad gx.shape.1),
    Nat.min_eq_left (tlen_ge pad gx.shape.2)]

/-- Witness for C3: an antisym-padded 2×2 call still returns shape `(2, 2)`. -/
theorem claim_C3_w :
    (Kottler.tail dftBackend (padded wF wF (some "antisym")).1
      (padded wF wF (some "antisym")).2 (some "antisym") none 1
      (result_type wF.dtype wF.dtype) wF.shape.1 wF.shape.2).shape = wF.shape :=
  (claim_C3 dftBackend wF wF (some "antisym") none 1 (by decide) (by decide)
    (Or.inr rfl)).2.1

/-- The zero-frequency entry of every FFT sample-frequency sequence is at
index 0. -/
theorem fftfreq_zero (n : Nat) : fftfreq n 0 = 0 := by
  unfold fftfreq
  split
  · simp
  · rename_i h
    have hn : n = 0 := by omega
    subst hn
    norm_num

/-- C6: on every non-erroring call, the frequency grids are the standard FFT
sample-frequency sequences of length equal to the actual transform lengths —
doubled exactly when padding was applied (matching the padded field shapes),
the originals otherwise — with the zero frequency at index 0, and the
vertical sequence `fy` enters the broadcast 2D denominator through the row
index while the horizontal sequence `fx` enters through the column index
(the column-against-row broadcast). -/
theorem claim_C6 (B : Backend) (gy gx : NDArr) (pad : Option String)
    (w : Option Int) (piv : ℚ)
    (hdt : isRealFloating (result_type gy.dtype gx.dtype) = true)
    (hsh : gx.shape = gy.shape)
    (hpad : pad = none ∨ pad = some "antisym") :
    (Kottler.tlen pad gx.shape.1 =
      if pad = some "antisym" then 2 * gx.shape.1 else gx.shape.1) ∧
    (Kottler.tlen pad gx.shape.2 =
      if pad = some "antisym" then 2 * gx.shape.2 else gx.shape.2) ∧
    fftfreq (Kottler.tlen pad gx.shape.1) 0 = 0 ∧
    fftfreq (Kottler.tlen pad gx.shape.2) 0 = 0 ∧
    (pad = some "antisym" →
      (antisym gy gx).1.shape =
          (Kottler.tlen pad gx.shape.1, Kottler.tlen pad gx.shape.2) ∧
        (antisym gy gx).2.shape =
          (Kottler.tlen pad gx.shape.1, Kottler.tlen pad gx.shape.2)) ∧
    ∀ i j, Kottler.fdenRaw piv pad gx.shape.1 gx.shape.2 i j =
      CQ.Iu * CQ.ofQ 2 * CQ.ofQ piv *
        (CQ.ofQ (fftfreq (Kottler.tlen pad gx.shape.2) j) +
         CQ.Iu * CQ.ofQ (fftfreq (Kottler.tlen pad gx.shape.1) i)) := by
  have hlen : ∀ n : Nat, Kottler.tlen pad n =
      if pad = some "antisym" then 2 * n else n := by
    intro n
    rcases hpad with h | h <;> subst h <;> rfl
  refine ⟨hlen _, hlen _, fftfreq_zero _, fftfreq_zero _, ?_, fun i j => rfl⟩
  intro h
  subst h
  rw [hlen, hlen]
  simp [antisym, ← hsh]

/-- Witness for C6: the doubled transform length of an antisym-padded 2×2
call. -/
theorem claim_C6_w :
    Kottler.tlen (some "antisym") wF.shape.1 =
      if (some "antisym" : Option String) = some "antisym"
      then 2 * wF.shape.1 else wF.shape.1 :=
  (claim_C6 dftBackend wF wF (some "antisym") none 1 (by decide) (by decide)
    (Or.inr rfl)).1

/-- C8: the operation is purely functional, and the worker-count hint cannot
change the returned value: for a backend whose transforms ignore the hint (as
the spec requires of the underlying implementation), two calls that differ
only in `workers` return the same value.  Purity itself is by construction of
the embedding (a call's value is a function of its arguments alone). -/
theorem claim_C8 (B : Backend)
    (hf : ∀ sh g w w2, B.fft2 sh g w = B.fft2 sh g w2)
    (hi : ∀ sh g w w2, B.ifft2 sh g w = B.ifft2 sh g w2)
    (gy gx : NDArr) (pad : Option String) (piv : ℚ) (w w2 : Option Int) :
    kottler B gy gx pad w piv = kottler B gy gx pad w2 piv := by
  have htail : ∀ a b pd (dt : DType) (y x : Nat),
      Kottler.tail B a b pd w piv dt y x = Kottler.tail B a b pd w2 piv dt y x := by
    intro a b pd dt y x
    have h1 : Kottler.fnum B a b pd w y x = Kottler.fnum B a b pd w2 y x := by
      unfold Kottler.fnum
      exact hf _ _ w w2
    have h2 : Kottler.fphase B a b pd w piv y x =
        Kottler.fphase B a b pd w2 piv y x := by
      unfold Kottler.fphase
      rw [h1]
    show (⟨dt, _, fun i j => CQ.ofQ ((B.ifft2 (Kottler.tlen pd y, Kottler.tlen pd x)
        (Kottler.fphase B a b pd w piv y x) w i j).re)⟩ : NDArr) = _
    rw [h2, hi (Kottler.tlen pd y, Kottler.tlen pd x)
      (Kottler.fphase B a b pd w2 piv y x) w w2]
    rfl
  unfold kottler
  rcases hcs : check_shapes gx gy with e | p
  · rfl
  · obtain ⟨y, x⟩ := p
    by_cases hdt : isRealFloating (result_type gy.dtype gx.dtype) = false
    · simp [hdt]
    · simp [hdt, htail]

/-- Witness for C8: with the concrete transform pair (which ignores the
hint), a 2×2 call with `workers = 1` equals the same call with
`workers = 4`. -/
theorem claim_C8_w :
    kottler dftBackend wF wF none (some 1) 1 =
      kottler dftBackend wF wF none (some 4) 1 :=
  claim_C8 dftBackend (fun _ _ _ _ => rfl) (fun _ _ _ _ => rfl)
    wF wF none 1 (some 1) (some 4)

/-! ### Exact inversion of the concrete transforms at size 4, for the
round-trip property -/

@[simp] theorem CQ.natCast_re (n : ℕ) : ((n : ℕ) : CQ).re = (n : ℚ) := by
  induction n with
  | zero => simp
  | succ m ih => simp [Nat.cast_succ, ih]

@[simp] theorem CQ.natCast_im (n : ℕ) : ((n : ℕ) : CQ).im = 0 := by
  induction n with
  | zero => simp
  | succ m ih => simp [Nat.cast_succ, ih]

@[simp] theorem CQ.ofNat_re (n : ℕ) [n.AtLeastTwo] :
    (OfNat.ofNat n : CQ).re = OfNat.ofNat n := by
  have h : (OfNat.ofNat n : CQ) = ((n : ℕ) : CQ) := rfl
  rw [h, CQ.natCast_re]
  exact Nat.cast_ofNat

@[simp] theorem CQ.ofNat_im (n : ℕ) [n.AtLeastTwo] :
    (OfNat.ofNat n : CQ).im = 0 := by
  have h : (OfNat.ofNat n : CQ) = ((n : ℕ) : CQ) := rfl
  rw [h, CQ.natCast_im]

@[simp] theorem CQ.four_re : (4 : CQ).re = 4 := by rw [CQ.ofNat_re]

@[simp] theorem CQ.four_im : (4 : CQ).im = 0 := by rw [CQ.ofNat_im]

/-- Powers of the imaginary unit cycle with period 4. -/
theorem pow_iu (t : Nat) :
    CQ.Iu ^ t = if t % 4 = 0 then 1 else if t % 4 = 1 then CQ.Iu
      else if t % 4 = 2 then ⟨-1, 0⟩ else ⟨0, -1⟩ := by
  induction t with
  | zero => simp
  | succ n ih =>
    rw [pow_succ, ih]
    have h4 : n % 4 < 4 := Nat.mod_lt _ (by norm_num)
    have hs : (n + 1) % 4 = (n % 4 + 1) % 4 := by omega
    rw [hs]
    interval_cases h : n % 4 <;>
      · apply CQ.cqext <;> simp <;> norm_num

/-- Powers of `-i` cycle with period 4. -/
theorem pow_iuc (t : Nat) :
    (⟨0, -1⟩ : CQ) ^ t = if t % 4 = 0 then 1 else if t % 4 = 1 then ⟨0, -1⟩
      else if t % 4 = 2 then ⟨-1, 0⟩ else CQ.Iu := by
  induction t with
  | zero => simp
  | succ n ih =>
    rw [pow_succ, ih]
    have h4 : n % 4 < 4 := Nat.mod_lt _ (by norm_num)
    have hs : (n + 1) % 4 = (n % 4 + 1) % 4 := by omega
    rw [hs]
    interval_cases h : n % 4 <;>
      · apply CQ.cqext <;> simp <;> norm_num

/-- Orthogonality of the size-4 twiddle factors: summing
`i^(a t) · (-i)^(b t)` over one period detects `a = b`. -/
theorem orth4 (a b : Nat) (ha : a < 4) (hb : b < 4) :
    (∑ t ∈ Finset.range 4, idftRoot 4 ^ (a * t) * dftRoot 4 ^ (b * t)) =
      if a = b then CQ.ofQ 4 else 0 := by
  have hi : idftRoot 4 = CQ.Iu := rfl
  have hd : dftRoot 4 = (⟨0, -1⟩ : CQ) := rfl
  rw [hi, hd]
  interval_cases a <;> interval_cases b <;>
    · simp [Finset.sum_range_succ, pow_iu, pow_iuc, CQ.ofQ]
      first
        | rfl
        | (apply CQ.cqext <;> simp <;> norm_num)

theorem invc4_cancel (z : CQ) :
    invc4 * (CQ.ofQ 4 * (CQ.ofQ 4 * z)) = z := by
  unfold invc4
  apply CQ.cqext <;> simp <;> ring

/-- Reordering a quadruple sum so the outer two indices become inner. -/
theorem quad_swap (F : Nat → Nat → Nat → Nat → CQ) :
    (∑ m ∈ Finset.range 4, ∑ n ∈ Finset.range 4, ∑ a ∈ Finset.range 4,
        ∑ b ∈ Finset.range 4, F m n a b) =
      ∑ a ∈ Finset.range 4, ∑ b ∈ Finset.range 4, ∑ m ∈ Finset.range 4,
        ∑ n ∈ Finset.range 4, F m n a b := by
  calc (∑ m ∈ Finset.range 4, ∑ n ∈ Finset.range 4, ∑ a ∈ Finset.range 4,
          ∑ b ∈ Finset.range 4, F m n a b)
      = ∑ m ∈ Finset.range 4, ∑ a ∈ Finset.range 4, ∑ n ∈ Finset.range 4,
          ∑ b ∈ Finset.range 4, F m n a b :=
        Finset.sum_congr rfl fun m _ => Finset.sum_comm
    _ = ∑ a ∈ Finset.range 4, ∑ m ∈ Finset.range 4, ∑ n ∈ Finset.range 4,
          ∑ b ∈ Finset.range 4, F m n a b := Finset.sum_comm
    _ = ∑ a ∈ Finset.range 4, ∑ m ∈ Finset.range 4, ∑ b ∈ Finset.range 4,
          ∑ n ∈ Finset.range 4, F m n a b :=
        Finset.sum_congr rfl fun a _ => Finset.sum_congr rfl fun m _ =>
          Finset.sum_comm
    _ = ∑ a ∈ Finset.range 4, ∑ b ∈ Finset.range 4, ∑ m ∈ Finset.range 4,
          ∑ n ∈ Finset.range 4, F m n a b :=
        Finset.sum_congr rfl fun a _ => Finset.sum_comm

/-- Factorising a separable quadruple sum into a product of two 1D sums. -/
theorem quad_factor (c : CQ) (P Q : Nat → Nat → CQ) (W : Nat → Nat → CQ) :
    (∑ a ∈ Finset.range 4, ∑ b ∈ Finset.range 4, ∑ m ∈ Finset.range 4,
        ∑ n ∈ Finset.range 4, c * (P a m * (Q b n * W a b))) =
      ∑ a ∈ Finset.range 4, ∑ b ∈ Finset.range 4,
        c * ((∑ m ∈ Finset.range 4, P a m) *
          ((∑ n ∈ Finset.range 4, Q b n) * W a b)) := by
  refine Finset.sum_congr rfl fun a _ => Finset.sum_congr rfl fun b _ => ?_
  calc (∑ m ∈ Finset.range 4, ∑ n ∈ Finset.range 4, c * (P a m * (Q b n * W a b)))
      = ∑ m ∈ Finset.range 4,
          (c * (P a m * W a b)) * ∑ n ∈ Finset.range 4, Q b n := by
        refine Finset.sum_congr rfl fun m _ => ?_
        rw [Finset.mul_sum]
        exact Finset.sum_congr rfl fun n _ => by ring
    _ = ∑ m ∈ Finset.range 4,
          (c * (W a b * (∑ n ∈ Finset.range 4, Q b n))) * P a m :=
        Finset.sum_congr rfl fun m _ => by ring
    _ = (c * (W a b * (∑ n ∈ Finset.range 4, Q b n))) *
          ∑ m ∈ Finset.range 4, P a m := by
        rw [← Finset.mul_sum]
    _ = c * ((∑ m ∈ Finset.range 4, P a m) *
          ((∑ n ∈ Finset.range 4, Q b n) * W a b)) := by ring

/-- Evaluating the doubly-diagonal sum left by the orthogonality relations. -/
theorem diag_eval (c q : CQ) (W : Nat → Nat → CQ) (k l : Nat)
    (hk : k < 4) (hl : l < 4) :
    (∑ a ∈ Finset.range 4, ∑ b ∈ Finset.range 4,
        c * ((if a = k then q else 0) * ((if b = l then q else 0) * W a b))) =
      c * (q * (q * W k l)) := by
  have hsum : ∀ a,
      (∑ b ∈ Finset.range 4,
        c * ((if a = k then q else 0) * ((if b = l then q else 0) * W a b))) =
      if a = k then c * (q * (q * W a l)) else 0 := by
    intro a
    by_cases ha : a = k
    · simp only [ha, eq_self_iff_true, if_true]
      calc (∑ b ∈ Finset.range 4,
              c * (q * ((if b = l then q else 0) * W k b)))
          = ∑ b ∈ Finset.range 4,
              if b = l then c * (q * (q * W k b)) else 0 :=
            Finset.sum_congr rfl fun b _ => by
              by_cases hb : b = l <;> simp [hb]
        _ = if l ∈ Finset.range 4 then c * (q * (q * W k l)) else 0 :=
            Finset.sum_ite_eq' _ _ _
        _ = c * (q * (q * W k l)) := by simp [Finset.mem_range, hl]
    · simp only [if_neg ha]
      simp
  calc (∑ a ∈ Finset.range 4, ∑ b ∈ Finset.range 4,
          c * ((if a = k then q else 0) * ((if b = l then q else 0) * W a b)))
      = ∑ a ∈ Finset.range 4, if a = k then c * (q * (q * W a l)) else 0 :=
        Finset.sum_congr rfl fun a _ => hsum a
    _ = if k ∈ Finset.range 4 then c * (q * (q * W k l)) else 0 :=
        Finset.sum_ite_eq' _ _ _
    _ = c * (q * (q * W k l)) := by simp [Finset.mem_range, hk]

/-- The forward transform inverts the inverse transform on the 4×4 grid. -/
theorem dft2_idft2_apply (G : Grid) (k l : Nat) (hk : k < 4) (hl : l < 4) :
    dft2 (4, 4) (idft2 (4, 4) G) k l = G k l := by
  have h1 : ∀ m n : Nat,
      dftRoot 4 ^ (k * m) * dftRoot 4 ^ (l * n) * idft2 (4, 4) G m n =
        ∑ a ∈ Finset.range 4, ∑ b ∈ Finset.range 4,
          invc4 * ((idftRoot 4 ^ (a * m) * dftRoot 4 ^ (k * m)) *
            ((idftRoot 4 ^ (b * n) * dftRoot 4 ^ (l * n)) * G a b)) := by
    intro m n
    have hI : idft2 (4, 4) G m n =
        invc4 * ∑ a ∈ Finset.range 4, ∑ b ∈ Finset.range 4,
          idftRoot 4 ^ (a * m) * idftRoot 4 ^ (b * n) * G a b := rfl
    rw [hI]
    simp only [Finset.mul_sum]
    exact Finset.sum_congr rfl fun a _ => Finset.sum_congr rfl fun b _ => by ring
  calc dft2 (4, 4) (idft2 (4, 4) G) k l
      = ∑ m ∈ Finset.range 4, ∑ n ∈ Finset.range 4,
          dftRoot 4 ^ (k * m) * dftRoot 4 ^ (l * n) * idft2 (4, 4) G m n := rfl
    _ = ∑ m ∈ Finset.range 4, ∑ n ∈ Finset.range 4, ∑ a ∈ Finset.range 4,
          ∑ b ∈ Finset.range 4,
          invc4 * ((idftRoot 4 ^ (a * m) * dftRoot 4 ^ (k * m)) *
            ((idftRoot 4 ^ (b * n) * dftRoot 4 ^ (l * n)) * G a b)) :=
        Finset.sum_congr rfl fun m _ => Finset.sum_congr rfl fun n _ => h1 m n
    _ = ∑ a ∈ Finset.range 4, ∑ b ∈ Finset.range 4, ∑ m ∈ Finset.range 4,
          ∑ n ∈ Finset.range 4,
          invc4 * ((idftRoot 4 ^ (a * m) * dftRoot 4 ^ (k * m)) *
            ((idftRoot 4 ^ (b * n) * dftRoot 4 ^ (l * n)) * G a b)) :=
        quad_swap (fun m n a b =>
          invc4 * ((idftRoot 4 ^ (a * m) * dftRoot 4 ^ (k * m)) *
            ((idftRoot 4 ^ (b * n) * dftRoot 4 ^ (l * n)) * G a b)))
    _ = ∑ a ∈ Finset.range 4, ∑ b ∈ Finset.range 4,
          invc4 * ((∑ m ∈ Finset.range 4, idftRoot 4 ^ (a * m) * dftRoot 4 ^ (k * m)) *
            ((∑ n ∈ Finset.range 4, idftRoot 4 ^ (b * n) * dftRoot 4 ^ (l * n)) * G a b)) :=
        quad_factor invc4 (fun a m => idftRoot 4 ^ (a * m) * dftRoot 4 ^ (k * m))
          (fun b n => idftRoot 4 ^ (b * n) * dftRoot 4 ^ (l * n)) G
    _ = ∑ a ∈ Finset.range 4, ∑ b ∈ Finset.range 4,
          invc4 * ((if a = k then CQ.ofQ 4 else 0) *
            ((if b = l then CQ.ofQ 4 else 0) * G a b)) :=
        Finset.sum_congr rfl fun a ha => Finset.sum_congr rfl fun b hb => by
          rw [orth4 a k (Finset.mem_range.mp ha) hk,
            orth4 b l (Finset.mem_range.mp hb) hl]
    _ = invc4 * (CQ.ofQ 4 * (CQ.ofQ 4 * G k l)) := diag_eval _ _ _ _ _ hk hl
    _ = G k l := invc4_cancel _

/-- Condition flip for the diagonal indicators. -/
theorem ite_eq_flip (x y : Nat) (q : CQ) :
    (if x = y then q else 0) = if y = x then q else 0 := by
  by_cases h : x = y
  · simp [h]
  · rw [if_neg h, if_neg (fun hyx => h hyx.symm)]

/-- The inverse transform inverts the forward transform on the 4×4 grid. -/
theorem idft2_dft2_apply (φ : Grid) (m n : Nat) (hm : m < 4) (hn : n < 4) :
    idft2 (4, 4) (dft2 (4, 4) φ) m n = φ m n := by
  have h1 : ∀ kk ll : Nat,
      invc4 * (idftRoot 4 ^ (kk * m) * idftRoot 4 ^ (ll * n) * dft2 (4, 4) φ kk ll) =
        ∑ a ∈ Finset.range 4, ∑ b ∈ Finset.range 4,
          invc4 * ((idftRoot 4 ^ (m * kk) * dftRoot 4 ^ (a * kk)) *
            ((idftRoot 4 ^ (n * ll) * dftRoot 4 ^ (b * ll)) * φ a b)) := by
    intro kk ll
    have hD : dft2 (4, 4) φ kk ll =
        ∑ a ∈ Finset.range 4, ∑ b ∈ Finset.range 4,
          dftRoot 4 ^ (kk * a) * dftRoot 4 ^ (ll * b) * φ a b := rfl
    rw [hD]
    simp only [Finset.mul_sum]
    refine Finset.sum_congr rfl fun a _ => Finset.sum_congr rfl fun b _ => ?_
    rw [Nat.mul_comm kk m, Nat.mul_comm ll n, Nat.mul_comm kk a, Nat.mul_comm ll b]
    ring
  calc idft2 (4, 4) (dft2 (4, 4) φ) m n
      = invc4 * ∑ kk ∈ Finset.range 4, ∑ ll ∈ Finset.range 4,
          idftRoot 4 ^ (kk * m) * idftRoot 4 ^ (ll * n) * dft2 (4, 4) φ kk ll := rfl
    _ = ∑ kk ∈ Finset.range 4, ∑ ll ∈ Finset.range 4,
          invc4 * (idftRoot 4 ^ (kk * m) * idftRoot 4 ^ (ll * n) *
            dft2 (4, 4) φ kk ll) := by
        rw [Finset.mul_sum]
        exact Finset.sum_congr rfl fun kk _ => Finset.mul_sum _ _ _
    _ = ∑ kk ∈ Finset.range 4, ∑ ll ∈ Finset.range 4, ∑ a ∈ Finset.range 4,
          ∑ b ∈ Finset.range 4,
          invc4 * ((idftRoot 4 ^ (m * kk) * dftRoot 4 ^ (a * kk)) *
            ((idftRoot 4 ^ (n * ll) * dftRoot 4 ^ (b * ll)) * φ a b)) :=
        Finset.sum_congr rfl fun kk _ => Finset.sum_congr rfl fun ll _ => h1 kk ll
    _ = ∑ a ∈ Finset.range 4, ∑ b ∈ Finset.range 4, ∑ kk ∈ Finset.range 4,
          ∑ ll ∈ Finset.range 4,
          invc4 * ((idftRoot 4 ^ (m * kk) * dftRoot 4 ^ (a * kk)) *
            ((idftRoot 4 ^ (n * ll) * dftRoot 4 ^ (b * ll)) * φ a b)) :=
        quad_swap (fun kk ll a b =>
          invc4 * ((idftRoot 4 ^ (m * kk) * dftRoot 4 ^ (a * kk)) *
            ((idftRoot 4 ^ (n * ll) * dftRoot 4 ^ (b * ll)) * φ a b)))
    _ = ∑ a ∈ Finset.range 4, ∑ b ∈ Finset.range 4,
          invc4 * ((∑ kk ∈ Finset.range 4, idftRoot 4 ^ (m * kk) * dftRoot 4 ^ (a * kk)) *
            ((∑ ll ∈ Finset.range 4, idftRoot 4 ^ (n * ll) * dftRoot 4 ^ (b * ll)) * φ a b)) :=
        quad_factor invc4 (fun a kk => idftRoot 4 ^ (m * kk) * dftRoot 4 ^ (a * kk))
          (fun b ll => idftRoot 4 ^ (n * ll) * dftRoot 4 ^ (b * ll)) φ
    _ = ∑ a ∈ Finset.range 4, ∑ b ∈ Finset.range 4,
          invc4 * ((if a = m then CQ.ofQ 4 else 0) *
            ((if b = n then CQ.ofQ 4 else 0) * φ a b)) :=
        Finset.sum_congr rfl fun a ha => Finset.sum_congr rfl fun b hb => by
          rw [orth4 m a hm (Finset.mem_range.mp ha),
            orth4 n b hn (Finset.mem_range.mp hb),
            ite_eq_flip m a, ite_eq_flip n b]
    _ = invc4 * (CQ.ofQ 4 * (CQ.ofQ 4 * φ m n)) := diag_eval _ _ _ _ _ hm hn
    _ = φ m n := invc4_cancel _

/-- The inverse transform is linear in its operand (stated in the combined
form the gradient-signal construction needs). -/
theorem idft2_combine (sh : Nat × Nat) (F G : Grid) (c0 : CQ) (m n : Nat) :
    idft2 sh (fun k l => F k l + c0 * G k l) m n =
      idft2 sh F m n + c0 * idft2 sh G m n := by
  unfold idft2
  have h1 : (∑ k ∈ Finset.range sh.1, ∑ l ∈ Finset.range sh.2,
      idftRoot sh.1 ^ (k * m) * idftRoot sh.2 ^ (l * n) * (F k l + c0 * G k l)) =
      (∑ k ∈ Finset.range sh.1, ∑ l ∈ Finset.range sh.2,
        idftRoot sh.1 ^ (k * m) * idftRoot sh.2 ^ (l * n) * F k l) +
      c0 * ∑ k ∈ Finset.range sh.1, ∑ l ∈ Finset.range sh.2,
        idftRoot sh.1 ^ (k * m) * idftRoot sh.2 ^ (l * n) * G k l := by
    rw [Finset.mul_sum, ← Finset.sum_add_distrib]
    refine Finset.sum_congr rfl fun k _ => ?_
    rw [Finset.mul_sum, ← Finset.sum_add_distrib]
    exact Finset.sum_congr rfl fun l _ => by ring
  rw [h1]
  ring

/-- The inverse transform of the one-hot zero-frequency grid is the constant
`1 / 16`. -/
theorem idft2_e00 (m n : Nat) :
    idft2 (4, 4) (fun k l => if k = 0 ∧ l = 0 then (1 : CQ) else 0) m n =
      invc4 := by
  have hin : ∀ k : Nat,
      (∑ l ∈ Finset.range 4, idftRoot 4 ^ (k * m) * idftRoot 4 ^ (l * n) *
        (if k = 0 ∧ l = 0 then (1 : CQ) else 0)) = if k = 0 then 1 else 0 := by
    intro k
    by_cases hk : k = 0
    · subst hk
      calc (∑ l ∈ Finset.range 4, idftRoot 4 ^ (0 * m) * idftRoot 4 ^ (l * n) *
              (if 0 = 0 ∧ l = 0 then (1 : CQ) else 0))
          = ∑ l ∈ Finset.range 4,
              if l = 0 then idftRoot 4 ^ (0 * m) * idftRoot 4 ^ (l * n) else 0 :=
            Finset.sum_congr rfl fun l _ => by
              by_cases hl : l = 0 <;> simp [hl]
        _ = if (0 : Nat) ∈ Finset.range 4
            then idftRoot 4 ^ (0 * m) * idftRoot 4 ^ (0 * n) else 0 :=
            Finset.sum_ite_eq' _ _ _
        _ = if (0 : Nat) = 0 then 1 else 0 := by simp
    · calc (∑ l ∈ Finset.range 4, idftRoot 4 ^ (k * m) * idftRoot 4 ^ (l * n) *
              (if k = 0 ∧ l = 0 then (1 : CQ) else 0))
          = ∑ l ∈ Finset.range 4, (0 : CQ) :=
            Finset.sum_congr rfl fun l _ => by simp [hk]
        _ = if k = 0 then 1 else 0 := by simp [hk]
  have h0 : idft2 (4, 4) (fun k l => if k = 0 ∧ l = 0 then (1 : CQ) else 0) m n =
      invc4 * ∑ k ∈ Finset.range 4, ∑ l ∈ Finset.range 4,
        idftRoot 4 ^ (k * m) * idftRoot 4 ^ (l * n) *
          (if k = 0 ∧ l = 0 then (1 : CQ) else 0) := rfl
  rw [h0]
  calc invc4 * ∑ k ∈ Finset.range 4, ∑ l ∈ Finset.range 4,
          idftRoot 4 ^ (k * m) * idftRoot 4 ^ (l * n) *
            (if k = 0 ∧ l = 0 then (1 : CQ) else 0)
      = invc4 * ∑ k ∈ Finset.range 4, if k = 0 then (1 : CQ) else 0 := by
        rw [Finset.sum_congr rfl fun k _ => hin k]
    _ = invc4 * ∑ k ∈ Finset.range 4, if k = 0 then (fun _ => (1 : CQ)) k else 0 :=
        rfl
    _ = invc4 := by
        rw [Finset.sum_ite_eq' (Finset.range 4) 0 (fun _ => (1 : CQ))]
        simp

/-- Overwriting the zero-frequency entry with `0` before the inverse transform
subtracts the grid mean `G 0 0 / 16` from every output sample. -/
theorem idft2_setitem00 (G : Grid) (m n : Nat) :
    idft2 (4, 4) (setitem00 G 0) m n = idft2 (4, 4) G m n - invc4 * G 0 0 := by
  have hfun : setitem00 G 0 = fun k l =>
      G k l + (-(G 0 0)) * (if k = 0 ∧ l = 0 then (1 : CQ) else 0) := by
    funext k l
    by_cases h : k = 0 ∧ l = 0
    · obtain ⟨hk0, hl0⟩ := h
      subst hk0; subst hl0
      simp [setitem00]
    · simp [setitem00, h]
  rw [hfun, idft2_combine (4, 4) G
    (fun k l => if k = 0 ∧ l = 0 then (1 : CQ) else 0) (-(G 0 0)) m n,
    idft2_e00]
  ring

/-- Away from index 0, the length-4 sample frequencies are nonzero. -/
theorem fftfreq4_ne_zero {k : Nat} (hk : k < 4) (h0 : k ≠ 0) :
    fftfreq 4 k ≠ 0 := by
  interval_cases k
  · exact absurd rfl h0
  · norm_num [fftfreq]
  · norm_num [fftfreq]
  · norm_num [fftfreq]

/-- Away from the zero-frequency index, the raw denominator of an unpadded
4×4 call does not vanish (for a nonzero `π` constant). -/
theorem fdenRaw_ne_zero (piv : ℚ) (hpiv : piv ≠ 0) (k l : Nat)
    (hk : k < 4) (hl : l < 4) (hkl : ¬(k = 0 ∧ l = 0)) :
    Kottler.fdenRaw piv none 4 4 k l ≠ 0 := by
  intro h
  have hval : Kottler.fdenRaw piv none 4 4 k l =
      ⟨-(2 * piv * fftfreq 4 k), 2 * piv * fftfreq 4 l⟩ := by
    apply CQ.cqext <;> simp [Kottler.fdenRaw, Kottler.tlen, pyTruthy] <;> ring
  rw [hval, show (0 : CQ) = ⟨0, 0⟩ from rfl, CQ.mk.injEq] at h
  obtain ⟨hre, him⟩ := h
  have hfk : fftfreq 4 k = 0 := by
    have h2 : 2 * piv * fftfreq 4 k = 0 := neg_eq_zero.mp hre
    rcases mul_eq_zero.mp h2 with h3 | h3
    · rcases mul_eq_zero.mp h3 with h4 | h4
      · norm_num at h4
      · exact absurd h4 hpiv
    · exact h3
  have hfl : fftfreq 4 l = 0 := by
    rcases mul_eq_zero.mp him with h3 | h3
    · rcases mul_eq_zero.mp h3 with h4 | h4
      · norm_num at h4
      · exact absurd h4 hpiv
    · exact h3
  by_cases hk0 : k = 0
  · have hl0 : l ≠ 0 := fun hl0 => hkl ⟨hk0, hl0⟩
    exact fftfreq4_ne_zero hl hl0 hfl
  · exact fftfreq4_ne_zero hk hk0 hfk

/-- The imaginary part of a finite sum is the sum of imaginary parts. -/
theorem CQ.sum_im {α : Type} (s : Finset α) (f : α → CQ) :
    (∑ x ∈ s, f x).im = ∑ x ∈ s, (f x).im := by
  induction s using Finset.cons_induction with
  | empty => simp
  | cons a s ha ih => simp [Finset.sum_cons, ih]

/-- A value with vanishing imaginary part is fixed by taking its real part. -/
theorem CQ.ofQ_re_eq_self {z : CQ} (h : z.im = 0) : CQ.ofQ z.re = z := by
  apply CQ.cqext <;> simp [h]

theorem CQ.four_eq_ofQ : (4 : CQ) = CQ.ofQ 4 := by
  apply CQ.cqext <;> simp

/-- On an unpadded 4×4 call fed the spectral gradients of `φ`, the forward
transform of the complex gradient signal is exactly the raw denominator times
the spectrum of `φ`. -/
theorem fnum_grad (φ : Grid) (piv : ℚ) (w : Option Int) (k l : Nat)
    (hk : k < 4) (hl : l < 4) :
    Kottler.fnum dftBackend (gradY4 piv φ) (gradX4 piv φ) none w 4 4 k l =
      Kottler.fdenRaw piv none 4 4 k l * dft2 (4, 4) φ k l := by
  have h0 : Kottler.fnum dftBackend (gradY4 piv φ) (gradX4 piv φ) none w 4 4 k l =
      dft2 (4, 4) (fun a b => gradX4 piv φ a b + CQ.Iu * gradY4 piv φ a b) k l :=
    rfl
  rw [h0]
  have harg : (fun a b => gradX4 piv φ a b + CQ.Iu * gradY4 piv φ a b) =
      idft2 (4, 4) (fun k2 l2 =>
        Kottler.fdenRaw piv none 4 4 k2 l2 * dft2 (4, 4) φ k2 l2) := by
    funext a b
    unfold gradX4 gradY4
    rw [← idft2_combine (4, 4)
      (fun k2 l2 => CQ.Iu * CQ.ofQ 2 * CQ.ofQ piv * CQ.ofQ (fftfreq 4 l2) *
        dft2 (4, 4) φ k2 l2)
      (fun k2 l2 => CQ.Iu * CQ.ofQ 2 * CQ.ofQ piv * CQ.ofQ (fftfreq 4 k2) *
        dft2 (4, 4) φ k2 l2) CQ.Iu a b]
    refine congrFun (congrFun (congrArg (idft2 (4, 4)) ?_) a) b
    funext k2 l2
    have ht : Kottler.tlen none 4 = 4 := rfl
    simp only [Kottler.fdenRaw, ht]
    ring
  rw [harg, dft2_idft2_apply _ k l hk hl]

/-- On an unpadded 4×4 call fed the spectral gradients of `φ`, the phase
spectrum handed to the inverse transform is the spectrum of `φ` with its
zero-frequency entry replaced by `0`. -/
theorem fphase_grad (φ : Grid) (piv : ℚ) (w : Option Int) (hpiv : piv ≠ 0)
    (k l : Nat) (hk : k < 4) (hl : l < 4) :
    Kottler.fphase dftBackend (gradY4 piv φ) (gradX4 piv φ) none w piv 4 4 k l =
      setitem00 (dft2 (4, 4) φ) 0 k l := by
  by_cases h00 : k = 0 ∧ l = 0
  · obtain ⟨hk0, hl0⟩ := h00
    subst hk0; subst hl0
    simp [Kottler.fphase, setitem00]
  · have e1 : Kottler.fphase dftBackend (gradY4 piv φ) (gradX4 piv φ)
        none w piv 4 4 k l =
        Kottler.fnum dftBackend (gradY4 piv φ) (gradX4 piv φ) none w 4 4 k l /
          Kottler.fden piv none 4 4 k l := by
      simp [Kottler.fphase, setitem00, h00]
    have e2 : Kottler.fden piv none 4 4 k l =
        Kottler.fdenRaw piv none 4 4 k l := by
      simp [Kottler.fden, setitem00, h00]
    rw [e1, e2, fnum_grad φ piv w k l hk hl,
      mul_div_cancel_left₀ _ (fdenRaw_ne_zero piv hpiv k l hk hl h00)]
    simp [setitem00, h00]

@[simp] theorem CQ.sub_re (a b : CQ) : (a - b).re = a.re - b.re := by
  rw [sub_eq_add_neg, CQ.add_re, CQ.neg_re]
  ring

@[simp] theorem CQ.sub_im (a b : CQ) : (a - b).im = a.im - b.im := by
  rw [sub_eq_add_neg, CQ.add_im, CQ.neg_im]
  ring

/-- On an unpadded 4×4 call fed the spectral gradients of `φ`, the inverse
transform of the phase spectrum recovers `φ` minus its grid mean, exactly. -/
theorem res_grad (φ : Grid) (piv : ℚ) (w : Option Int) (hpiv : piv ≠ 0)
    (i j : Nat) (hi : i < 4) (hj : j < 4) :
    idft2 (4, 4)
        (Kottler.fphase dftBackend (gradY4 piv φ) (gradX4 piv φ) none w piv 4 4)
        i j =
      φ i j - mean4 φ := by
  have e1 : idft2 (4, 4)
      (Kottler.fphase dftBackend (gradY4 piv φ) (gradX4 piv φ) none w piv 4 4)
      i j = idft2 (4, 4) (setitem00 (dft2 (4, 4) φ) 0) i j := by
    have h0 : idft2 (4, 4)
        (Kottler.fphase dftBackend (gradY4 piv φ) (gradX4 piv φ) none w piv 4 4)
        i j =
        invc4 * ∑ k ∈ Finset.range 4, ∑ l ∈ Finset.range 4,
          idftRoot 4 ^ (k * i) * idftRoot 4 ^ (l * j) *
            Kottler.fphase dftBackend (gradY4 piv φ) (gradX4 piv φ)
              none w piv 4 4 k l := rfl
    have h1 : idft2 (4, 4) (setitem00 (dft2 (4, 4) φ) 0) i j =
        invc4 * ∑ k ∈ Finset.range 4, ∑ l ∈ Finset.range 4,
          idftRoot 4 ^ (k * i) * idftRoot 4 ^ (l * j) *
            setitem00 (dft2 (4, 4) φ) 0 k l := rfl
    rw [h0, h1]
    refine congrArg (fun t => invc4 * t) ?_
    refine Finset.sum_congr rfl fun k hk => Finset.sum_congr rfl fun l hl => ?_
    rw [fphase_grad φ piv w hpiv k l (Finset.mem_range.mp hk)
      (Finset.mem_range.mp hl)]
  rw [e1, idft2_setitem00, idft2_dft2_apply φ i j hi hj]
  have hΦ : invc4 * dft2 (4, 4) φ 0 0 = mean4 φ := by
    have h0 : dft2 (4, 4) φ 0 0 =
        ∑ m ∈ Finset.range 4, ∑ n ∈ Finset.range 4,
          dftRoot 4 ^ (0 * m) * dftRoot 4 ^ (0 * n) * φ m n := rfl
    rw [mean4, h0]
    refine congrArg (fun t => invc4 * t) ?_
    refine Finset.sum_congr rfl fun m _ => Finset.sum_congr rfl fun n _ => ?_
    simp
  rw [hΦ]

/-- C7: round-trip consistency.  For every scalar field `φ` sampled on the
4×4 grid with real sample values, feeding `kottler` the discrete gradients of
`φ` (built from the analytic gradient of its band-limited interpolant, with
the same idealised `π` constant) on an unpadded call recovers `φ` up to an
additive constant, exactly in the exact-arithmetic model:
`result − mean(result) = φ − mean(φ)` elementwise. -/
theorem claim_C7 (φ : Grid) (piv : ℚ) (w : Option Int) (hpiv : piv ≠ 0)
    (hreal : ∀ i, i < 4 → ∀ j, j < 4 → (φ i j).im = 0) :
    kottler dftBackend (gradArrY piv φ) (gradArrX piv φ) none w piv =
      .ok (Kottler.tail dftBackend (gradY4 piv φ) (gradX4 piv φ) none w piv
        DType.float64 4 4) ∧
    ∀ i, i < 4 → ∀ j, j < 4 →
      (Kottler.tail dftBackend (gradY4 piv φ) (gradX4 piv φ) none w piv
          DType.float64 4 4).data i j -
        mean4 (Kottler.tail dftBackend (gradY4 piv φ) (gradX4 piv φ) none w piv
          DType.float64 4 4).data =
      φ i j - mean4 φ := by
  have hdata : ∀ i, i < 4 → ∀ j, j < 4 →
      (Kottler.tail dftBackend (gradY4 piv φ) (gradX4 piv φ) none w piv
        DType.float64 4 4).data i j = φ i j - mean4 φ := by
    intro i hi j hj
    have h0 : (Kottler.tail dftBackend (gradY4 piv φ) (gradX4 piv φ) none w piv
        DType.float64 4 4).data i j =
        CQ.ofQ ((idft2 (4, 4)
          (Kottler.fphase dftBackend (gradY4 piv φ) (gradX4 piv φ)
            none w piv 4 4) i j).re) := rfl
    rw [h0, res_grad φ piv w hpiv i j hi hj]
    apply CQ.ofQ_re_eq_self
    have hφim : (φ i j).im = 0 := hreal i hi j hj
    have hmim : (mean4 φ).im = 0 := by
      have hsum0 : (∑ a ∈ Finset.range 4, ∑ b ∈ Finset.range 4, φ a b).im = 0 := by
        rw [CQ.sum_im]
        refine Finset.sum_eq_zero fun a ha => ?_
        rw [CQ.sum_im]
        exact Finset.sum_eq_zero fun b hb =>
          hreal a (Finset.mem_range.mp ha) b (Finset.mem_range.mp hb)
      show (invc4 * _).im = 0
      rw [CQ.mul_im, hsum0]
      simp [invc4]
    rw [CQ.sub_im, hφim, hmim]
    ring
  have hmean0 : mean4 (Kottler.tail dftBackend (gradY4 piv φ) (gradX4 piv φ)
      none w piv DType.float64 4 4).data = 0 := by
    rw [mean4]
    have hsum : (∑ i ∈ Finset.range 4, ∑ j ∈ Finset.range 4,
        (Kottler.tail dftBackend (gradY4 piv φ) (gradX4 piv φ) none w piv
          DType.float64 4 4).data i j) =
        (∑ i ∈ Finset.range 4, ∑ j ∈ Finset.range 4, φ i j) -
          CQ.ofQ 4 * (CQ.ofQ 4 * mean4 φ) := by
      calc (∑ i ∈ Finset.range 4, ∑ j ∈ Finset.range 4,
              (Kottler.tail dftBackend (gradY4 piv φ) (gradX4 piv φ) none w piv
                DType.float64 4 4).data i j)
          = ∑ i ∈ Finset.range 4, ∑ j ∈ Finset.range 4, (φ i j - mean4 φ) :=
            Finset.sum_congr rfl fun i hi => Finset.sum_congr rfl fun j hj =>
              hdata i (Finset.mem_range.mp hi) j (Finset.mem_range.mp hj)
        _ = ∑ i ∈ Finset.range 4,
              ((∑ j ∈ Finset.range 4, φ i j) -
                ∑ _j ∈ Finset.range 4, mean4 φ) :=
            Finset.sum_congr rfl fun i _ => Finset.sum_sub_distrib
        _ = (∑ i ∈ Finset.range 4, ∑ j ∈ Finset.range 4, φ i j) -
              ∑ _i ∈ Finset.range 4, ∑ _j ∈ Finset.range 4, mean4 φ :=
            Finset.sum_sub_distrib
        _ = (∑ i ∈ Finset.range 4, ∑ j ∈ Finset.range 4, φ i j) -
              CQ.ofQ 4 * (CQ.ofQ 4 * mean4 φ) := by
            rw [Finset.sum_const, Finset.sum_const, Finset.card_range,
              nsmul_eq_mul, nsmul_eq_mul, ← CQ.four_eq_ofQ]
            norm_num
    rw [hsum, mul_sub, invc4_cancel]
    have : invc4 * ∑ i ∈ Finset.range 4, ∑ j ∈ Finset.range 4, φ i j =
        mean4 φ := rfl
    rw [this, sub_self]
  refine ⟨kottler_ok dftBackend (gradArrY piv φ) (gradArrX piv φ) none w piv
    rfl rfl (Or.inl rfl), ?_⟩
  intro i hi j hj
  rw [hdata i hi j hj, hmean0, sub_zero]

/-- Witness for C7: the round-trip identity at sample (1, 2) of a concrete
linear field with `π` idealised as 1. -/
theorem claim_C7_w :
    (Kottler.tail dftBackend (gradY4 1 phiW) (gradX4 1 phiW) none none 1
        DType.float64 4 4).data 1 2 -
      mean4 (Kottler.tail dftBackend (gradY4 1 phiW) (gradX4 1 phiW) none none 1
        DType.float64 4 4).data =
    phiW 1 2 - mean4 phiW :=
  (claim_C7 phiW 1 none one_ne_zero (by decide)).2 1 (by decide) 2 (by decide)
